import Mathlib

/-!
Verification development for the medical-telegram-warehouse pipeline.

We shallowly embed the pure cores of the repository:
  * the price/product entity extractor (`src/pipeline/transform.py`,
    `ai_agent/transform.py`), including an executable small-step
    backtracking matcher for the compiled pattern
    `\b\d{1,3}(?:[.,]\d{3})*(?:[.,]\d{2})?\s*(?:ETB|birr|USD|US\x24|\x24)?\b`
    with Python `re.findall` scanning semantics;
  * image categorization (`src/yolo_detect.py`, `ai_agent/detection.py`);
  * the scraper's per-channel error handling (`src/scraper.py`);
  * the destructive-idempotent loaders (`src/load_to_postgres.py`,
    `src/load_yolo_results.py`).
Text is modelled as `List Char`; floats as `ℚ`; the character classes
`\d`, `\w`, `\s` are modelled on their ASCII fragment, which covers the
pattern's own alphabet.
-/

namespace PriceRegex

/-- Python `\d` (ASCII fragment). -/
def isDigitC (c : Char) : Bool := c.isDigit

/-- Python `\w` (ASCII fragment): alphanumeric or underscore. -/
def isWordC (c : Char) : Bool := c.isAlphanum || c = '_'

/-- Python `\s` (common fragment). -/
def isSpaceC (c : Char) : Bool := c.isWhitespace

/-- The pattern's separator class (dot or comma). -/
def isSep (c : Char) : Bool := c = '.' || c = ','

def wordOpt : Option Char → Bool
  | none => false
  | some c => isWordC c

/-- Python `\b`: a word boundary between two (optional) characters. -/
def boundary (prev next : Option Char) : Bool := wordOpt prev ^^ wordOpt next

/-- A continuation-passing matcher over the remaining input; the first
argument is the previously consumed character (for `\b`), the result is
the suffix left after a successful match of the whole remaining pattern. -/
abbrev K := Option Char → List Char → Option (List Char)

/-- Pattern piece one to three digits, greedy with backtracking (three, then two, then one digit). -/
def digits13 (k : K) : K := fun _ s =>
  match s with
  | [] => none
  | c1 :: r1 =>
    if isDigitC c1 then
      match r1 with
      | [] => k (some c1) []
      | c2 :: r2 =>
        if isDigitC c2 then
          match r2 with
          | [] => (k (some c2) []) <|> (k (some c1) r1)
          | c3 :: r3 =>
            if isDigitC c3 then
              (k (some c3) r3) <|> (k (some c2) r2) <|> (k (some c1) r1)
            else (k (some c2) r2) <|> (k (some c1) r1)
        else k (some c1) r1
    else none

/-- Pattern piece separator-plus-three-digits, a greedy star with backtracking over whole iterations. -/
def sepStar (k : K) : Option Char → List Char → Option (List Char)
  | prev, c :: d1 :: d2 :: d3 :: rest =>
    (if isSep c && isDigitC d1 && isDigitC d2 && isDigitC d3 then
      sepStar k (some d3) rest
    else none)
    <|> k prev (c :: d1 :: d2 :: d3 :: rest)
  | prev, s => k prev s

/-- Pattern piece optional separator-plus-two-digits, greedy option. -/
def opt2 (k : K) : K := fun prev s =>
  (match s with
   | c :: d1 :: d2 :: rest =>
     if isSep c && isDigitC d1 && isDigitC d2 then k (some d2) rest else none
   | _ => none)
  <|> k prev s

/-- Pattern piece whitespace star, greedy with backtracking. -/
def spaceStar (k : K) : Option Char → List Char → Option (List Char)
  | prev, c :: rest =>
    (if isSpaceC c then spaceStar k (some c) rest else none) <|> k prev (c :: rest)
  | prev, [] => k prev []

/-- A case-insensitive literal word, as under `re.IGNORECASE`. -/
def litIC : List Char → K → K
  | [], k => k
  | w :: ws, k => fun _ s =>
    match s with
    | c :: rest => if c.toLower = w.toLower then litIC ws k (some c) rest else none
    | [] => none

/-- Optional currency suffix: alternatives ETB, birr, USD, US-dollar, dollar
tried in pattern order, then the empty option. -/
def currencyOpt (k : K) : K := fun prev s =>
  litIC "ETB".toList k prev s <|> litIC "birr".toList k prev s
    <|> litIC "USD".toList k prev s <|> litIC "US$".toList k prev s
    <|> litIC "$".toList k prev s <|> k prev s

/-- The trailing `\b` of the pattern. -/
def endBound : K := fun prev s => if boundary prev s.head? then some s else none

/-- Check that the head of a suffix is not a digit. -/
def headNotDigit : List Char → Bool
  | [] => true
  | c :: _ => !isDigitC c

/-- Check that the head of a suffix is not a separator. -/
def headNotSep : List Char → Bool
  | [] => true
  | c :: _ => !isSep c

/-- Check that the head of a suffix is not whitespace. -/
def headNotSpace : List Char → Bool
  | [] => true
  | c :: _ => !isSpaceC c

/-- Check that a suffix does not begin with a whole separator group, so
an iteration of the greedy star must fail on it. -/
def noIter3 : List Char → Bool
  | c :: d1 :: d2 :: d3 :: _ => !(isSep c && isDigitC d1 && isDigitC d2 && isDigitC d3)
  | _ => true

/-- The previous-character value after a greedy whitespace run. -/
def spacesLast (n : Nat) (prev : Option Char) : Option Char :=
  match n with
  | 0 => prev
  | _ + 1 => some ' '

/-- Attempt to match the whole price pattern at the current position. -/
def priceMatch (prev : Option Char) (s : List Char) : Option (List Char) :=
  if boundary prev s.head? then
    digits13 (sepStar (opt2 (spaceStar (currencyOpt endBound)))) prev s
  else none

/-- Python re.findall scanning: try each position left to right, continue after
each (non-empty) match.  The fuel argument dominates the number of scan
steps; `s.length + 1` always suffices since every step consumes at least
one character. -/
def findallAux : Nat → Option Char → List Char → List (List Char)
  | 0, _, _ => []
  | fuel + 1, prev, s =>
    match priceMatch prev s with
    | some rest' =>
      let tok := s.take (s.length - rest'.length)
      tok :: findallAux fuel tok.getLast? rest'
    | none =>
      match s with
      | [] => []
      | c :: rest => findallAux fuel (some c) rest

/-- The whole of PRICE_REGEX.findall applied to a text. -/
def findall (s : List Char) : List (List Char) := findallAux (s.length + 1) none s

end PriceRegex

/-- An input record with optional text fields, as read by
`parse_text_record` (a Python dict whose `.get` yields `None` for a
missing key; CSV rows carry strings).  Python truthiness of a field is
"present and non-empty". -/
structure TextRecord where
  message_id : Option String
  channel_name : Option String
  message_text : Option String
  ocr_text : Option String
deriving DecidableEq

/-- Python substring test `needle in hay` on lists of characters. -/
def containsSub (hay needle : List Char) : Bool :=
  needle.isPrefixOf hay ||
    match hay with
    | [] => false
    | _ :: t => containsSub t needle

/-- Python truthiness of an optional string field. -/
def truthy : Option String → Bool
  | none => false
  | some s => !s.isEmpty

/-- Value of a field that passed the truthiness check. -/
def fieldVal (o : Option String) : List Char := (o.getD "").toList

/-- The structured parse produced by `parse_text_record`. -/
structure ParseResult where
  message_id : Option String
  channel_name : Option String
  products : List (List Char)
  prices : List (List Char)
  source_text : List Char
deriving DecidableEq

namespace Pipeline
/-! Embedding of `src/src/pipeline/transform.py`. -/

/-- The module's fixed product vocabulary `PRODUCT_TERMS`. -/
def PRODUCT_TERMS : List (List Char) :=
  ["tablet".toList, "capsule".toList, "syrup".toList, "injection".toList,
   "ointment".toList, "cream".toList, "bandage".toList, "mask".toList,
   "gloves".toList, "antibiotic".toList, "vitamin".toList, "aspirin".toList,
   "paracetamol".toList, "ibuprofen".toList, "cough syrup".toList]

/-- Function `extract_prices`: `PRICE_REGEX.findall(text or "")`.  The
module's `PRICE_REGEX` literal is character-identical to the pattern
compiled in `PriceRegex`. -/
def extract_prices (text : List Char) : List (List Char) := PriceRegex.findall text

/-- The loop body of `extract_prices`' sibling `extract_product_terms`:
walk the vocabulary in order, appending each term contained in the
lowered text. -/
def findTerms (vocab : List (List Char)) (lowered : List Char) : List (List Char) :=
  match vocab with
  | [] => []
  | term :: rest =>
    if containsSub lowered term then term :: findTerms rest lowered
    else findTerms rest lowered

/-- Function `extract_product_terms`: early-return `[]` on falsy text, else
scan the lowered text for the vocabulary terms. -/
def extract_product_terms (text : List Char) : List (List Char) :=
  if text.isEmpty then []
  else findTerms PRODUCT_TERMS (text.map Char.toLower)

/-- Function `parse_text_record`: the `full_text` list accumulated over the
keys `message_text` and `ocr_text` (append when truthy). -/
def full_text (r : TextRecord) : List (List Char) :=
  (if truthy r.message_text then [fieldVal r.message_text] else [])
    ++ (if truthy r.ocr_text then [fieldVal r.ocr_text] else [])

/-- Function `parse_text_record`: join the present fields with " | ", then
extract prices and products. -/
def parse_text_record (r : TextRecord) : ParseResult :=
  let combined := List.intercalate " | ".toList (full_text r)
  { message_id := r.message_id
    channel_name := r.channel_name
    products := extract_product_terms combined
    prices := extract_prices combined
    source_text := combined }

/-- Function `process_yolo_ocr_file`, with the CSV rows abstracted to the
list of records the `csv.DictReader` yields: keep a parse only if its
products or prices list is truthy (non-empty). -/
def process_yolo_ocr_file (rows : List TextRecord) : List ParseResult :=
  match rows with
  | [] => []
  | row :: rest =>
    let parsed := parse_text_record row
    if !parsed.products.isEmpty || !parsed.prices.isEmpty then
      parsed :: process_yolo_ocr_file rest
    else process_yolo_ocr_file rest

end Pipeline

namespace AiAgent
/-! Embedding of `src/ai_agent/transform.py` (the second copy of the
entity-extraction module). -/

/-- The module's fixed product vocabulary `PRODUCT_TERMS`. -/
def PRODUCT_TERMS : List (List Char) :=
  ["tablet".toList, "capsule".toList, "syrup".toList, "injection".toList,
   "ointment".toList, "cream".toList, "bandage".toList, "mask".toList,
   "gloves".toList, "antibiotic".toList, "vitamin".toList, "aspirin".toList,
   "paracetamol".toList, "ibuprofen".toList, "cough syrup".toList]

/-- Function `extract_prices`: `PRICE_REGEX.findall(text or "")`.  This
module's `PRICE_REGEX` literal is character-identical to the pattern
compiled in `PriceRegex`. -/
def extract_prices (text : List Char) : List (List Char) := PriceRegex.findall text

/-- The vocabulary loop of this module's `extract_product_terms`. -/
def findTerms (vocab : List (List Char)) (lowered : List Char) : List (List Char) :=
  match vocab with
  | [] => []
  | term :: rest =>
    if containsSub lowered term then term :: findTerms rest lowered
    else findTerms rest lowered

/-- Function `extract_product_terms` of the second module. -/
def extract_product_terms (text : List Char) : List (List Char) :=
  if text.isEmpty then []
  else findTerms PRODUCT_TERMS (text.map Char.toLower)

/-- Function `parse_text_record` of the second module: a generator
expression filters the truthy fields before joining with " | ". -/
def parse_text_record (r : TextRecord) : ParseResult :=
  let combined := List.intercalate " | ".toList
    (([r.message_text, r.ocr_text].filter truthy).map fieldVal)
  { message_id := r.message_id
    channel_name := r.channel_name
    products := extract_product_terms combined
    prices := extract_prices combined
    source_text := combined }

/-- Function `process_yolo_ocr_file` of the second module. -/
def process_yolo_ocr_file (rows : List TextRecord) : List ParseResult :=
  match rows with
  | [] => []
  | row :: rest =>
    let parsed := parse_text_record row
    if !parsed.products.isEmpty || !parsed.prices.isEmpty then
      parsed :: process_yolo_ocr_file rest
    else process_yolo_ocr_file rest

end AiAgent

namespace Yolo
/-! Embedding of `ImageDetector.categorize_image`, identical in
`src/src/yolo_detect.py` and `src/ai_agent/detection.py`. -/

/-- One YOLO detection box (dict with keys class, confidence, bbox). -/
structure Detection where
  className : String
  confidence : ℚ
  bbox : List ℚ
deriving DecidableEq

/-- Class attribute `PRODUCT_CLASSES` (a Python set; membership only). -/
def PRODUCT_CLASSES : List String := ["bottle", "cup", "bowl", "vase", "cell phone"]

/-- Class attribute `PERSON_CLASS`. -/
def PERSON_CLASS : String := "person"

/-- Python `max(confidences) if confidences else 0.0`. -/
def pyMax : List ℚ → ℚ
  | [] => 0
  | c :: cs => cs.foldl max c

/-- Method `categorize_image`: early return on no detections, then the
two-boolean decision table over the detected class names. -/
def categorize_image (detections : List Detection) : String × List String × ℚ :=
  if detections.isEmpty then ("other", [], 0)
  else
    let detected_classes := detections.map (·.className)
    let confidences := detections.map (·.confidence)
    let max_confidence := pyMax confidences
    let has_person := detected_classes.contains PERSON_CLASS
    let has_product := detected_classes.any (fun cls => PRODUCT_CLASSES.contains cls)
    let category :=
      if has_person && has_product then "promotional"
      else if has_product && !has_person then "product_display"
      else if has_person && !has_product then "lifestyle"
      else "other"
    (category, detected_classes, max_confidence)

/-- The spec's decision table over the two booleans (hasPerson, hasProduct). -/
def specCategory (hasPerson hasProduct : Bool) : String :=
  if hasPerson && hasProduct then "promotional"
  else if hasProduct then "product_display"
  else if hasPerson then "lifestyle"
  else "other"

/-- The hasPerson boolean computed from the class names of a detection list. -/
def hasPersonOf (detections : List Detection) : Bool :=
  (detections.map (·.className)).contains PERSON_CLASS

/-- The hasProduct boolean computed from the class names of a detection list. -/
def hasProductOf (detections : List Detection) : Bool :=
  (detections.map (·.className)).any (fun cls => PRODUCT_CLASSES.contains cls)

end Yolo

namespace Scraper
/-! Embedding of the error-handling skeleton of `TelegramScraper`
(`src/src/scraper.py`).  The external message source is modelled by the
sequence of outcomes its successive full-channel fetch attempts would
produce: each attempt either yields the channel's messages, or raises
`FloodWaitError` after some fetched prefix, or raises
`ChannelPrivateError`, or raises some other exception. -/

/-- A scraped message (only identity matters for the control flow). -/
structure Msg where
  message_id : Int
deriving DecidableEq

/-- Outcome of one full fetch attempt on a channel. -/
inductive Attempt where
  | ok (msgs : List Msg)
  | floodWait (fetched : List Msg) (seconds : Nat)
  | privErr
  | otherErr
deriving DecidableEq

/-- Method `scrape_channel`: returns the pair (sleeps performed, messages
returned).  `ChannelPrivateError` and generic exceptions are caught and
give `[]`; `FloodWaitError e` sleeps `e.seconds` and re-invokes
`scrape_channel` on the same channel, abandoning the attempt's fetched
prefix; an exhausted attempt list also gives `[]`. -/
def scrape_channel : List Attempt → List Nat × List Msg
  | [] => ([], [])
  | .ok msgs :: _ => ([], msgs)
  | .floodWait _ seconds :: rest =>
    let (sleeps, msgs) := scrape_channel rest
    (seconds :: sleeps, msgs)
  | .privErr :: _ => ([], [])
  | .otherErr :: _ => ([], [])

/-- One entry of the run summary built by `scrape_all_channels`. -/
structure SummaryEntry where
  channel_name : String
  messages_scraped : Nat
  status : String
deriving DecidableEq

/-- Method `scrape_all_channels`: for each configured channel, scrape it
(`scrape_channel` never raises: every exception class is absorbed inside
it) and append a summary entry; the surrounding try/except would record
status failed only for an exception escaping the loop body, which none
does. -/
def scrape_all_channels (channels : List (String × List Attempt)) : List SummaryEntry :=
  match channels with
  | [] => []
  | (name, attempts) :: rest =>
    let messages_data := (scrape_channel attempts).2
    { channel_name := name
      messages_scraped := messages_data.length
      status := "success" } :: scrape_all_channels rest

end Scraper

namespace Loader
/-! Embedding of the destructive-idempotent load path of
`PostgreSQLLoader` (`src/src/load_to_postgres.py`) and
`YOLOResultsLoader` (`src/src/load_yolo_results.py`).  The database
table is `none` when absent and `some rows` when present; whether the
database accepts an individual row of the batch (a malformed record
fails) is modelled by an acceptance oracle. -/

/-- Method `create_schema_and_table`: `DROP TABLE IF EXISTS` then
`CREATE TABLE`, leaving an empty table whatever the prior state. -/
def create_schema_and_table (_ : Option (List α)) : Option (List α) := some []

/-- Method `insert_messages`: early return on an empty batch; otherwise a
single `execute_batch` + commit inside one try block — if any row is
rejected the transaction is rolled back (table unchanged) and the
exception re-raised.  There is no row-level skip. -/
def insert_messages (canInsert : α → Bool) (table : List α) (batch : List α) :
    Except Unit (List α) :=
  if batch.isEmpty then .ok table
  else if batch.all canInsert then .ok (table ++ batch)
  else .error ()

/-- The raw-loader `run` path restricted to its persistence effect:
create (drop + recreate) then bulk-insert the batch. -/
def run_load (canInsert : α → Bool) (batch : List α) (st : Option (List α)) :
    Option (List α) :=
  match create_schema_and_table st with
  | some table =>
    match insert_messages canInsert table batch with
    | .ok rows => some rows
    | .error _ => some table
  | none => none

/-- Method `YOLOResultsLoader.create_table`: same drop-and-recreate shape. -/
def create_table (_ : Option (List α)) : Option (List α) := some []

/-- Method `YOLOResultsLoader.insert_results`: same all-or-nothing batch
insert shape. -/
def insert_results (canInsert : α → Bool) (table : List α) (batch : List α) :
    Except Unit (List α) :=
  if batch.isEmpty then .ok table
  else if batch.all canInsert then .ok (table ++ batch)
  else .error ()

/-- The YOLO-results `run` path restricted to its persistence effect. -/
def run_yolo_load (canInsert : α → Bool) (batch : List α) (st : Option (List α)) :
    Option (List α) :=
  match create_table st with
  | some table =>
    match insert_results canInsert table batch with
    | .ok rows => some rows
    | .error _ => some table
  | none => none

/-- Number of rows an observer counts in the table after a run. -/
def rowCount (st : Option (List α)) : Nat := (st.getD []).length

end Loader

namespace CleanTok
/-! A grammar of clean price tokens, used to state how far `extract_prices`
is idempotent on its own output: one to three digits, then
thousand-separator groups, then an optional separator-plus-two-digits
tail, then an optional run of spaces followed by a currency word. -/

/-- One to three leading digits. -/
inductive Digits13 where
  | one (a : Fin 10)
  | two (a b : Fin 10)
  | three (a b c : Fin 10)

/-- A thousands separator (dot or comma). -/
inductive Sep where
  | dot
  | comma

/-- A separator followed by three digits. -/
structure Grp where
  sep : Sep
  a : Fin 10
  b : Fin 10
  c : Fin 10

/-- A separator followed by two digits (decimal-like tail). -/
structure Tl2 where
  sep : Sep
  a : Fin 10
  b : Fin 10

/-- A currency word of the pattern that ends in a word character (the
bare dollar alternatives are excluded: they end in a non-word character
and do not survive re-extraction). -/
inductive Cur where
  | etb
  | birr
  | usd

/-- A clean token: digits, groups, optional decimal tail, optional
spaces-then-currency suffix. -/
structure Tok where
  ds : Digits13
  groups : List Grp
  tl : Option Tl2
  cur : Option (Nat × Cur)

/-- The character of a decimal digit. -/
def digitChar (n : Fin 10) : Char := Char.ofNat (48 + n.val)

/-- The character of a separator. -/
def Sep.toChar : Sep → Char
  | .dot => '.'
  | .comma => ','

/-- Characters of the leading digits. -/
def Digits13.chars : Digits13 → List Char
  | .one a => [digitChar a]
  | .two a b => [digitChar a, digitChar b]
  | .three a b c => [digitChar a, digitChar b, digitChar c]

/-- Characters of a separator group. -/
def Grp.chars (g : Grp) : List Char :=
  [g.sep.toChar, digitChar g.a, digitChar g.b, digitChar g.c]

/-- Characters of a decimal tail. -/
def Tl2.chars (t : Tl2) : List Char := [t.sep.toChar, digitChar t.a, digitChar t.b]

/-- Characters of a currency word (as spelled in the pattern). -/
def Cur.chars : Cur → List Char
  | .etb => "ETB".toList
  | .birr => "birr".toList
  | .usd => "USD".toList

/-- Characters of the optional suffix. -/
def sufChars : Option (Nat × Cur) → List Char
  | none => []
  | some (n, c) => List.replicate n ' ' ++ c.chars

/-- Characters of the optional decimal tail. -/
def tlChars : Option Tl2 → List Char
  | none => []
  | some t => t.chars

/-- The text of a clean token. -/
def Tok.chars (t : Tok) : List Char :=
  t.ds.chars ++ (t.groups.map Grp.chars).flatten ++ tlChars t.tl ++ sufChars t.cur

/-- Space-separated concatenation of a list of tokens, Python
`" ".join(tokens)`. -/
def joinSpace : List (List Char) → List Char
  | [] => []
  | [x] => x
  | x :: xs => x ++ ' ' :: joinSpace xs

/-- The last digit of the leading digit block. -/
def Digits13.lastD : Digits13 → Fin 10
  | .one a => a
  | .two _ b => b
  | .three _ _ c => c

/-- The last digit after also traversing the separator groups. -/
def grpLastD : List Grp → Fin 10 → Fin 10
  | [], m => m
  | g :: gs, _ => grpLastD gs g.c

/-- The last digit after also traversing the optional decimal tail. -/
def tlLastD : Option Tl2 → Fin 10 → Fin 10
  | none, m => m
  | some t, _ => t.b

/-- The last character of a currency word. -/
def curLast : Cur → Char
  | .etb => 'B'
  | .birr => 'r'
  | .usd => 'D'

/-- The last digit of the numeric core of a token. -/
def Tok.lastND (t : Tok) : Fin 10 := tlLastD t.tl (grpLastD t.groups t.ds.lastD)

/-- The last character of a token's text. -/
def Tok.lastC (t : Tok) : Char :=
  match t.cur with
  | some (_, c) => curLast c
  | none => digitChar t.lastND

/-- Strip trailing whitespace from a token. -/
def stripTrail (l : List Char) : List Char :=
  (l.reverse.dropWhile PriceRegex.isSpaceC).reverse

end CleanTok

/-- A concrete extractor input row carrying signal, used as a test vector. -/
def aspirinRow : TextRecord := ⟨some "2", some "ch", some "aspirin 5 birr", none⟩

section Theorems

/-! Helper lemmas. -/

theorem foldl_max_eq_or_mem (l : List ℚ) (a : ℚ) :
    l.foldl max a = a ∨ l.foldl max a ∈ l := by
  induction l generalizing a with
  | nil => exact Or.inl rfl
  | cons b t ih =>
    rcases ih (max a b) with h | h
    · rcases max_choice a b with hm | hm
      · exact Or.inl (by rw [List.foldl_cons, h, hm])
      · exact Or.inr (by rw [List.foldl_cons, h, hm]; exact List.mem_cons_self b t)
    · exact Or.inr (List.mem_cons_of_mem b h)

theorem le_foldl_max (l : List ℚ) (a : ℚ) : a ≤ l.foldl max a := by
  induction l generalizing a with
  | nil => exact le_refl a
  | cons b t ih => exact le_trans (le_max_left a b) (ih (max a b))

theorem mem_le_foldl_max (l : List ℚ) (a x : ℚ) (hx : x ∈ l) : x ≤ l.foldl max a := by
  induction l generalizing a with
  | nil => cases hx
  | cons b t ih =>
    rcases List.mem_cons.mp hx with rfl | h
    · exact le_trans (le_max_right a x) (le_foldl_max t (max a x))
    · exact ih (max a b) h

theorem pyMax_is_ub (l : List ℚ) (x : ℚ) (hx : x ∈ l) : x ≤ Yolo.pyMax l := by
  cases l with
  | nil => cases hx
  | cons c cs =>
    rcases List.mem_cons.mp hx with rfl | h
    · exact le_foldl_max cs x
    · exact mem_le_foldl_max cs c x h

theorem pyMax_mem (l : List ℚ) (h : l ≠ []) : Yolo.pyMax l ∈ l := by
  cases l with
  | nil => exact absurd rfl h
  | cons c cs =>
    rcases foldl_max_eq_or_mem cs c with h1 | h1
    · rw [show Yolo.pyMax (c :: cs) = cs.foldl max c from rfl, h1]
      exact List.mem_cons_self c cs
    · exact List.mem_cons_of_mem c h1

theorem categorize_eq_spec (D : List Yolo.Detection) :
    (Yolo.categorize_image D).1 = Yolo.specCategory (Yolo.hasPersonOf D) (Yolo.hasProductOf D) := by
  cases D with
  | nil => rfl
  | cons d ds =>
    simp only [Yolo.categorize_image, Yolo.specCategory, Yolo.hasPersonOf, Yolo.hasProductOf,
      List.isEmpty_cons, Bool.false_eq_true, if_false]
    rcases Bool.dichotomy (((d :: ds).map (·.className)).contains Yolo.PERSON_CLASS) with hP | hP <;>
      rcases Bool.dichotomy (((d :: ds).map (·.className)).any
          (fun cls => Yolo.PRODUCT_CLASSES.contains cls)) with hQ | hQ <;>
        (simp only [hP, hQ]; rfl)

/-- C1: the category component of `categorize_image(D)` is determined
solely by the booleans (hasPerson, hasProduct) computed from the class
names of `D` — both true gives promotional, product only gives
product_display, person only gives lifestyle, neither gives other — and
two detection lists with the same class names but different confidences
get the same category. -/
theorem c1_categorize_pure_in_booleans :
    (∀ D : List Yolo.Detection,
        (Yolo.categorize_image D).1 = Yolo.specCategory (Yolo.hasPersonOf D) (Yolo.hasProductOf D))
  ∧ (∀ D₁ D₂ : List Yolo.Detection,
        D₁.map Yolo.Detection.className = D₂.map Yolo.Detection.className →
        (Yolo.categorize_image D₁).1 = (Yolo.categorize_image D₂).1) := by
  refine ⟨categorize_eq_spec, fun D₁ D₂ h => ?_⟩
  rw [categorize_eq_spec, categorize_eq_spec]
  unfold Yolo.hasPersonOf Yolo.hasProductOf
  rw [show D₁.map Yolo.Detection.className = D₂.map Yolo.Detection.className from h]

/-- Witness for C1: two singleton person detections differing only in
confidence land in the same category. -/
theorem c1_witness :
    ([⟨"person", 1/2, []⟩] : List Yolo.Detection).map Yolo.Detection.className =
      ([⟨"person", 9/10, []⟩] : List Yolo.Detection).map Yolo.Detection.className
  ∧ (Yolo.categorize_image [⟨"person", 1/2, []⟩]).1 =
      (Yolo.categorize_image [⟨"person", 9/10, []⟩]).1 :=
  ⟨rfl, c1_categorize_pure_in_booleans.2 _ _ rfl⟩

/-- C2: the maxConfidence component of `categorize_image(D)` is the
maximum of the confidences of `D` (an upper bound that is attained when
`D` is non-empty), and on the empty detection list the result is exactly
(other, [], 0.0). -/
theorem c2_max_confidence :
    (∀ D : List Yolo.Detection, ∀ d ∈ D, d.confidence ≤ (Yolo.categorize_image D).2.2)
  ∧ (∀ D : List Yolo.Detection, D ≠ [] →
        (Yolo.categorize_image D).2.2 ∈ D.map Yolo.Detection.confidence)
  ∧ Yolo.categorize_image [] = ("other", [], 0) := by
  refine ⟨fun D d hd => ?_, fun D hD => ?_, rfl⟩
  · cases D with
    | nil => cases hd
    | cons x xs =>
      have : (Yolo.categorize_image (x :: xs)).2.2 =
          Yolo.pyMax ((x :: xs).map (·.confidence)) := rfl
      rw [this]
      exact pyMax_is_ub _ _ (List.mem_map_of_mem _ hd)
  · cases D with
    | nil => exact absurd rfl hD
    | cons x xs =>
      have : (Yolo.categorize_image (x :: xs)).2.2 =
          Yolo.pyMax ((x :: xs).map (·.confidence)) := rfl
      rw [this]
      exact pyMax_mem _ (by simp)

/-- Witness for C2: a concrete two-box list; the bound and attainment
hold at it, via the theorem. -/
theorem c2_witness :
    ((⟨"bottle", 3/4, []⟩ : Yolo.Detection) ∈
        ([⟨"bottle", 3/4, []⟩, ⟨"person", 1/4, []⟩] : List Yolo.Detection))
  ∧ (3/4 : ℚ) ≤ (Yolo.categorize_image [⟨"bottle", 3/4, []⟩, ⟨"person", 1/4, []⟩]).2.2
  ∧ ([⟨"bottle", (3:ℚ)/4, []⟩, ⟨"person", 1/4, []⟩] : List Yolo.Detection) ≠ []
  ∧ (Yolo.categorize_image [⟨"bottle", 3/4, []⟩, ⟨"person", 1/4, []⟩]).2.2 ∈
      ([⟨"bottle", 3/4, []⟩, ⟨"person", (1:ℚ)/4, []⟩] : List Yolo.Detection).map
        Yolo.Detection.confidence :=
  ⟨List.mem_cons_self _ _,
   c2_max_confidence.1 _ ⟨"bottle", 3/4, []⟩ (List.mem_cons_self _ _),
   by simp,
   c2_max_confidence.2.1 _ (by simp)⟩

theorem findTerms_eq_filter (vocab : List (List Char)) (lowered : List Char) :
    Pipeline.findTerms vocab lowered = vocab.filter (fun w => containsSub lowered w) := by
  induction vocab with
  | nil => rfl
  | cons t rest ih =>
    rw [List.filter_cons]
    cases h : containsSub lowered t <;> simp [Pipeline.findTerms, h, ih]

theorem extract_terms_eq_filter (t : List Char) :
    Pipeline.extract_product_terms t =
      Pipeline.PRODUCT_TERMS.filter (fun w => containsSub (t.map Char.toLower) w) := by
  cases t with
  | nil => decide
  | cons c cs =>
    unfold Pipeline.extract_product_terms
    rw [if_neg (by simp)]
    exact findTerms_eq_filter _ _

/-- C9: the list returned by extract_product_terms is the vocabulary list
filtered by occurrence in the lowered text, hence ordered by vocabulary
position and not by text position; a text containing "capsule" before
"tablet" still yields the terms in vocabulary order. -/
theorem c9_vocabulary_order :
    (∀ t : List Char, Pipeline.extract_product_terms t =
        Pipeline.PRODUCT_TERMS.filter (fun w => containsSub (t.map Char.toLower) w))
  ∧ (∀ t : List Char, (Pipeline.extract_product_terms t).Sublist Pipeline.PRODUCT_TERMS)
  ∧ Pipeline.extract_product_terms "some capsule then a tablet".toList =
      ["tablet".toList, "capsule".toList] := by
  refine ⟨extract_terms_eq_filter, fun t => ?_, by decide⟩
  rw [extract_terms_eq_filter]
  exact List.filter_sublist _

theorem process_eq_filter (rows : List TextRecord) :
    Pipeline.process_yolo_ocr_file rows =
      (rows.map Pipeline.parse_text_record).filter
        (fun p => !p.products.isEmpty || !p.prices.isEmpty) := by
  induction rows with
  | nil => rfl
  | cons r rest ih =>
    rw [List.map_cons, List.filter_cons]
    cases h : (!(Pipeline.parse_text_record r).products.isEmpty ||
        !(Pipeline.parse_text_record r).prices.isEmpty) <;>
      simp [Pipeline.process_yolo_ocr_file, h, ih]

/-- C3: a record is emitted by the extraction pipeline iff its parse
found at least one product term or price token; the parse of a row with
message text "hello world" and no OCR text has empty products and
prices, and such a row produces no record. -/
theorem c3_emit_iff_signal :
    (∀ rows : List TextRecord, Pipeline.process_yolo_ocr_file rows =
        (rows.map Pipeline.parse_text_record).filter
          (fun p => !p.products.isEmpty || !p.prices.isEmpty))
  ∧ (∀ (rows : List TextRecord) (p : ParseResult),
        p ∈ Pipeline.process_yolo_ocr_file rows → p.products ≠ [] ∨ p.prices ≠ [])
  ∧ Pipeline.parse_text_record ⟨some "1", some "ch", some "hello world", none⟩ =
      ⟨some "1", some "ch", [], [], "hello world".toList⟩
  ∧ Pipeline.process_yolo_ocr_file [⟨some "1", some "ch", some "hello world", none⟩] = [] := by
  refine ⟨process_eq_filter, fun rows p hp => ?_, by decide, by decide⟩
  rw [process_eq_filter] at hp
  have := List.of_mem_filter hp
  rcases Bool.or_eq_true _ _ |>.mp this with h | h
  · exact Or.inl (by simpa using h)
  · exact Or.inr (by simpa using h)

/-- Witness for C3: a row with an aspirin price is emitted, and the
theorem yields that its parse carries signal. -/
theorem c3_witness :
    (Pipeline.parse_text_record aspirinRow ∈ Pipeline.process_yolo_ocr_file [aspirinRow])
  ∧ ((Pipeline.parse_text_record aspirinRow).products ≠ []
      ∨ (Pipeline.parse_text_record aspirinRow).prices ≠ []) :=
  ⟨by decide, c3_emit_iff_signal.2.1 [aspirinRow] _ (by decide)⟩

/-- C4 counterexample: with a private channel between two healthy ones,
the run summary entry of the private channel has status "success" (with
zero messages), not "failed"; no entry at all is marked "failed". -/
theorem c4_counterexample :
    Scraper.scrape_all_channels
        [("a", [.ok [⟨1⟩]]), ("b", [.privErr]), ("c", [.ok [⟨2⟩, ⟨3⟩]])] =
      [⟨"a", 1, "success"⟩, ⟨"b", 0, "success"⟩, ⟨"c", 2, "success"⟩]
  ∧ ¬ ∃ e ∈ Scraper.scrape_all_channels
        [("a", [.ok [⟨1⟩]]), ("b", [.privErr]), ("c", [.ok [⟨2⟩, ⟨3⟩]])],
      e.status = "failed" := by decide

/-- C4 as amended: a permanent-access error on one channel is non-fatal —
the channel contributes zero messages, every other configured channel is
still scraped and summarized — but its summary entry records status
"success" with zero messages scraped, because the error is absorbed
inside scrape_channel and never reaches the "failed" branch of
scrape_all_channels. -/
theorem c4_amended_private_channel_nonfatal :
    ∀ (pre post : List (String × List Scraper.Attempt)) (name : String)
      (rest : List Scraper.Attempt),
      Scraper.scrape_all_channels (pre ++ (name, Scraper.Attempt.privErr :: rest) :: post) =
        Scraper.scrape_all_channels pre ++
          ⟨name, 0, "success"⟩ :: Scraper.scrape_all_channels post := by
  intro pre post name rest
  induction pre with
  | nil => rfl
  | cons c cs ih =>
    obtain ⟨nm, atts⟩ := c
    simp only [List.cons_append, List.append_eq, Scraper.scrape_all_channels, ih]

/-- C5 counterexample: one malformed row (the value 2, rejected by the
database) makes the whole batch insert fail and roll back: the run ends
with an empty table, the two well-formed rows are not inserted. -/
theorem c5_counterexample :
    Loader.insert_messages (fun r : Int => decide (r ≠ 2)) [] [1, 2, 3] = .error ()
  ∧ Loader.run_load (fun r : Int => decide (r ≠ 2)) [1, 2, 3] none = some []
  ∧ Loader.rowCount (Loader.run_load (fun r : Int => decide (r ≠ 2)) [1, 2, 3] none) = 0 :=
  ⟨rfl, rfl, rfl⟩

/-- C5 as amended: a single malformed record is fatal to the whole batch —
the transaction is rolled back and the error re-raised, so none of the
batch's rows are persisted; a batch whose rows are all well-formed is
inserted in full.  There is no row-level skip. -/
theorem c5_amended_row_failure_fatal {α : Type} (canInsert : α → Bool)
    (table batch : List α) :
    ((∃ r ∈ batch, canInsert r = false) →
        Loader.insert_messages canInsert table batch = .error ())
  ∧ ((∀ r ∈ batch, canInsert r = true) →
        Loader.insert_messages canInsert table batch = .ok (table ++ batch)) := by
  constructor
  · rintro ⟨r, hr, hcan⟩
    have hne : batch.isEmpty = false := by
      cases batch
      · cases hr
      · rfl
    have hall : batch.all canInsert = false := by
      rw [List.all_eq_false]
      exact ⟨r, hr, by simp [hcan]⟩
    simp [Loader.insert_messages, hne, hall]
  · intro h
    cases hb : batch.isEmpty
    · have hall : batch.all canInsert = true := List.all_eq_true.mpr h
      simp [Loader.insert_messages, hb, hall]
    · have : batch = [] := List.isEmpty_iff.mp hb
      subst this
      simp [Loader.insert_messages]

/-- Witness for C5's amended theorem at a concrete batch with one bad row. -/
theorem c5_witness :
    (∃ r ∈ ([1, 2, 3] : List Int), (fun r : Int => decide (r ≠ 2)) r = false)
  ∧ Loader.insert_messages (fun r : Int => decide (r ≠ 2)) [] [1, 2, 3] = .error () :=
  ⟨by decide, (c5_amended_row_failure_fatal _ _ _).1 (by decide)⟩

/-- C6: a rate-limit signal with delay n mid-way through a channel fetch
makes the scraper sleep exactly n and then re-run one full fetch of the
same channel from scratch: the result is that of a fresh scrape of the
remaining attempts, independent of the partially fetched messages, and
when the retry completes the sleeps are exactly [n] with the retry's
full message list returned. -/
theorem c6_floodwait_full_channel_retry :
    (∀ (fetched : List Scraper.Msg) (n : Nat) (rest : List Scraper.Attempt),
        Scraper.scrape_channel (.floodWait fetched n :: rest) =
          (n :: (Scraper.scrape_channel rest).1, (Scraper.scrape_channel rest).2))
  ∧ (∀ (f₁ f₂ : List Scraper.Msg) (n : Nat) (rest : List Scraper.Attempt),
        Scraper.scrape_channel (.floodWait f₁ n :: rest) =
          Scraper.scrape_channel (.floodWait f₂ n :: rest))
  ∧ (∀ (fetched msgs : List Scraper.Msg) (n : Nat) (rest : List Scraper.Attempt),
        Scraper.scrape_channel (.floodWait fetched n :: .ok msgs :: rest) = ([n], msgs)) := by
  refine ⟨fun fetched n rest => ?_, fun f₁ f₂ n rest => rfl, fun fetched msgs n rest => rfl⟩
  show (n :: (Scraper.scrape_channel rest).1, (Scraper.scrape_channel rest).2) = _
  rfl

/-- C7: the destructive-idempotent load (drop, recreate, bulk insert) is
insensitive to the prior table state, so running it twice with the same
batch leaves the same row count as running it once, and the count never
exceeds the batch size; likewise for the YOLO-results loader. -/
theorem c7_destructive_idempotent_load {α : Type} (canInsert : α → Bool)
    (batch : List α) (st st' : Option (List α)) :
    Loader.run_load canInsert batch st = Loader.run_load canInsert batch st'
  ∧ Loader.rowCount (Loader.run_load canInsert batch (Loader.run_load canInsert batch st)) =
      Loader.rowCount (Loader.run_load canInsert batch st)
  ∧ Loader.rowCount (Loader.run_load canInsert batch st) ≤ batch.length
  ∧ Loader.run_yolo_load canInsert batch st = Loader.run_yolo_load canInsert batch st'
  ∧ Loader.rowCount (Loader.run_yolo_load canInsert batch
      (Loader.run_yolo_load canInsert batch st)) =
      Loader.rowCount (Loader.run_yolo_load canInsert batch st)
  ∧ Loader.rowCount (Loader.run_yolo_load canInsert batch st) ≤ batch.length := by
  have hbound : Loader.rowCount (Loader.run_load canInsert batch st) ≤ batch.length := by
    unfold Loader.run_load Loader.create_schema_and_table Loader.insert_messages
    cases hb : batch.isEmpty <;> cases ha : batch.all canInsert <;>
      simp [Loader.rowCount]
  have hbound2 : Loader.rowCount (Loader.run_yolo_load canInsert batch st) ≤ batch.length := by
    unfold Loader.run_yolo_load Loader.create_table Loader.insert_results
    cases hb : batch.isEmpty <;> cases ha : batch.all canInsert <;>
      simp [Loader.rowCount]
  exact ⟨rfl, rfl, hbound, rfl, rfl, hbound2⟩

theorem findTerms_agree (vocab : List (List Char)) (l : List Char) :
    Pipeline.findTerms vocab l = AiAgent.findTerms vocab l := by
  induction vocab with
  | nil => rfl
  | cons t rest ih => simp [Pipeline.findTerms, AiAgent.findTerms, ih]

theorem full_text_eq (r : TextRecord) :
    Pipeline.full_text r = ([r.message_text, r.ocr_text].filter truthy).map fieldVal := by
  cases h1 : truthy r.message_text <;> cases h2 : truthy r.ocr_text <;>
    simp [Pipeline.full_text, List.filter, h1, h2]

theorem extract_prices_agree (t : List Char) :
    Pipeline.extract_prices t = AiAgent.extract_prices t := rfl

theorem extract_terms_agree (t : List Char) :
    Pipeline.extract_product_terms t = AiAgent.extract_product_terms t := by
  unfold Pipeline.extract_product_terms AiAgent.extract_product_terms
  rw [show Pipeline.PRODUCT_TERMS = AiAgent.PRODUCT_TERMS from rfl, findTerms_agree]

theorem parse_agree (r : TextRecord) :
    Pipeline.parse_text_record r = AiAgent.parse_text_record r := by
  unfold Pipeline.parse_text_record AiAgent.parse_text_record
  simp only [full_text_eq, extract_terms_agree, extract_prices_agree]

/-- C10: the two copies of the entity-extraction module are extensionally
equal: extract_prices, extract_product_terms, parse_text_record and
process_yolo_ocr_file agree on every input. -/
theorem c10_modules_extensionally_equal :
    (∀ t : List Char, Pipeline.extract_prices t = AiAgent.extract_prices t)
  ∧ (∀ t : List Char, Pipeline.extract_product_terms t = AiAgent.extract_product_terms t)
  ∧ (∀ r : TextRecord, Pipeline.parse_text_record r = AiAgent.parse_text_record r)
  ∧ (∀ rows : List TextRecord,
      Pipeline.process_yolo_ocr_file rows = AiAgent.process_yolo_ocr_file rows) := by
  refine ⟨fun t => rfl, extract_terms_agree, parse_agree, fun rows => ?_⟩
  induction rows with
  | nil => rfl
  | cons r rest ih =>
    simp only [Pipeline.process_yolo_ocr_file, AiAgent.process_yolo_ocr_file, parse_agree, ih]

/-! Symbolic-evaluation lemmas for the price matcher on clean tokens. -/

theorem isDigit_digitChar (n : Fin 10) :
    PriceRegex.isDigitC (CleanTok.digitChar n) = true := by fin_cases n <;> rfl

theorem isWord_digitChar (n : Fin 10) :
    PriceRegex.isWordC (CleanTok.digitChar n) = true := by fin_cases n <;> rfl

theorem notSpace_digitChar (n : Fin 10) :
    PriceRegex.isSpaceC (CleanTok.digitChar n) = false := by fin_cases n <;> rfl

theorem notSep_digitChar (n : Fin 10) :
    PriceRegex.isSep (CleanTok.digitChar n) = false := by fin_cases n <;> rfl

theorem isSep_sepChar (sp : CleanTok.Sep) :
    PriceRegex.isSep sp.toChar = true := by cases sp <;> rfl

theorem notDigit_sepChar (sp : CleanTok.Sep) :
    PriceRegex.isDigitC sp.toChar = false := by cases sp <;> rfl

theorem digits13_run (k : PriceRegex.K) (prev : Option Char) (ds : CleanTok.Digits13)
    (tail res : List Char) (ht : PriceRegex.headNotDigit tail = true)
    (hk : k (some (CleanTok.digitChar ds.lastD)) tail = some res) :
    PriceRegex.digits13 k prev (ds.chars ++ tail) = some res := by
  have hnd : ∀ c r, tail = c :: r → PriceRegex.isDigitC c = false := by
    intro c r h
    subst h
    simpa [PriceRegex.headNotDigit] using ht
  simp only [CleanTok.Digits13.lastD] at hk
  cases ds with
  | one a =>
    show PriceRegex.digits13 k prev (CleanTok.digitChar a :: tail) = some res
    cases tail with
    | nil =>
      simp only [PriceRegex.digits13, isDigit_digitChar, if_true]
      exact hk
    | cons c2 r2 =>
      simp only [PriceRegex.digits13, isDigit_digitChar, if_true, hnd c2 r2 rfl,
        Bool.false_eq_true, if_false]
      exact hk
  | two a b =>
    show PriceRegex.digits13 k prev
      (CleanTok.digitChar a :: CleanTok.digitChar b :: tail) = some res
    cases tail with
    | nil =>
      simp only [PriceRegex.digits13, isDigit_digitChar, if_true]
      rw [hk]
      rfl
    | cons c3 r3 =>
      simp only [PriceRegex.digits13, isDigit_digitChar, if_true, hnd c3 r3 rfl,
        Bool.false_eq_true, if_false]
      rw [hk]
      rfl
  | three a b c =>
    show PriceRegex.digits13 k prev
      (CleanTok.digitChar a :: CleanTok.digitChar b :: CleanTok.digitChar c :: tail) = some res
    simp only [PriceRegex.digits13, isDigit_digitChar, if_true]
    rw [hk]
    rfl

theorem sepStar_run (k : PriceRegex.K) (gs : List CleanTok.Grp) (m : Fin 10)
    (tail res : List Char) (ht : PriceRegex.noIter3 tail = true)
    (hk : k (some (CleanTok.digitChar (CleanTok.grpLastD gs m))) tail = some res) :
    PriceRegex.sepStar k (some (CleanTok.digitChar m))
      ((gs.map CleanTok.Grp.chars).flatten ++ tail) = some res := by
  revert hk
  induction gs generalizing m with
  | nil =>
    intro hk
    simp only [List.map_nil, List.flatten_nil, List.nil_append]
    simp only [CleanTok.grpLastD] at hk
    rcases tail with _ | ⟨c, _ | ⟨d1, _ | ⟨d2, _ | ⟨d3, rest⟩⟩⟩⟩
    · exact hk
    · exact hk
    · exact hk
    · exact hk
    · have hg : (PriceRegex.isSep c && (PriceRegex.isDigitC d1 &&
          (PriceRegex.isDigitC d2 && PriceRegex.isDigitC d3))) = false := by
        have := ht
        simp only [PriceRegex.noIter3, Bool.not_eq_true'] at this
        simpa [Bool.and_assoc] using this
      simp only [PriceRegex.sepStar, Bool.and_assoc, hg, Bool.false_eq_true, if_false,
        Option.none_orElse]
      exact hk
  | cons g gs ih =>
    intro hk
    obtain ⟨sp, a, b, c⟩ := g
    simp only [CleanTok.grpLastD] at hk
    simp only [List.map_cons, List.flatten_cons, CleanTok.Grp.chars, List.cons_append,
      List.append_assoc, List.nil_append]
    simp only [PriceRegex.sepStar, isSep_sepChar, isDigit_digitChar, Bool.and_self,
      Bool.true_and, Bool.and_true, if_true]
    rw [ih c hk]
    rfl

theorem opt2_run (k : PriceRegex.K) (tl : Option CleanTok.Tl2) (m : Fin 10)
    (tail res : List Char) (ht : PriceRegex.headNotSep tail = true)
    (hk : k (some (CleanTok.digitChar (CleanTok.tlLastD tl m))) tail = some res) :
    PriceRegex.opt2 k (some (CleanTok.digitChar m)) (CleanTok.tlChars tl ++ tail) = some res := by
  cases tl with
  | none =>
    simp only [CleanTok.tlChars, List.nil_append]
    simp only [CleanTok.tlLastD] at hk
    rcases tail with _ | ⟨c, _ | ⟨d1, _ | ⟨d2, rest⟩⟩⟩
    · exact hk
    · exact hk
    · exact hk
    · have hc : PriceRegex.isSep c = false := by
        simpa [PriceRegex.headNotSep, Bool.not_eq_true'] using ht
      simp only [PriceRegex.opt2, hc, Bool.false_and, Bool.false_eq_true, if_false,
        Option.none_orElse]
      exact hk
  | some t2 =>
    obtain ⟨sp, a, b⟩ := t2
    simp only [CleanTok.tlLastD] at hk
    simp only [CleanTok.tlChars, CleanTok.Tl2.chars, List.cons_append, List.nil_append]
    simp only [PriceRegex.opt2, isSep_sepChar, isDigit_digitChar, Bool.and_self,
      Bool.true_and, Bool.and_true, if_true]
    rw [hk]
    rfl

theorem spaceStar_run (k : PriceRegex.K) (n : Nat) (prev : Option Char)
    (tail res : List Char) (ht : PriceRegex.headNotSpace tail = true)
    (hk : k (PriceRegex.spacesLast n prev) tail = some res) :
    PriceRegex.spaceStar k prev (List.replicate n ' ' ++ tail) = some res := by
  revert hk
  induction n generalizing prev with
  | zero =>
    intro hk
    simp only [PriceRegex.spacesLast] at hk
    simp only [List.replicate, List.nil_append]
    cases tail with
    | nil => exact hk
    | cons c r =>
      have hc : PriceRegex.isSpaceC c = false := by
        simpa [PriceRegex.headNotSpace, Bool.not_eq_true'] using ht
      simp only [PriceRegex.spaceStar, hc, Bool.false_eq_true, if_false, Option.none_orElse]
      exact hk
  | succ n ih =>
    intro hk
    simp only [PriceRegex.spacesLast] at hk
    have hx : PriceRegex.spacesLast n (some ' ') = some ' ' := by cases n <;> rfl
    simp only [List.replicate, List.cons_append]
    have hsp : PriceRegex.isSpaceC ' ' = true := rfl
    simp only [PriceRegex.spaceStar, hsp, if_true]
    rw [ih (some ' ') (by rw [hx]; exact hk)]
    rfl

theorem currency_at_digit (k : PriceRegex.K) (prev : Option Char) (n : Fin 10)
    (r : List Char) :
    PriceRegex.currencyOpt k prev (CleanTok.digitChar n :: r) =
      k prev (CleanTok.digitChar n :: r) := by
  fin_cases n <;> rfl

theorem currency_at_nil (k : PriceRegex.K) (prev : Option Char) :
    PriceRegex.currencyOpt k prev [] = k prev [] := rfl

theorem currency_consume (k : PriceRegex.K) (prev : Option Char) (c : CleanTok.Cur)
    (r res : List Char) (hk : k (some (CleanTok.curLast c)) r = some res) :
    PriceRegex.currencyOpt k prev (c.chars ++ r) = some res := by
  cases c with
  | etb =>
    simp only [CleanTok.curLast] at hk
    unfold PriceRegex.currencyOpt
    rw [show PriceRegex.litIC "ETB".toList k prev (CleanTok.Cur.chars .etb ++ r) =
      k (some 'B') r from rfl, hk]
    rfl
  | birr =>
    simp only [CleanTok.curLast] at hk
    unfold PriceRegex.currencyOpt
    rw [show PriceRegex.litIC "ETB".toList k prev (CleanTok.Cur.chars .birr ++ r) =
      none from rfl, Option.none_orElse,
      show PriceRegex.litIC "birr".toList k prev (CleanTok.Cur.chars .birr ++ r) =
      k (some 'r') r from rfl, hk]
    rfl
  | usd =>
    simp only [CleanTok.curLast] at hk
    unfold PriceRegex.currencyOpt
    rw [show PriceRegex.litIC "ETB".toList k prev (CleanTok.Cur.chars .usd ++ r) =
      none from rfl, Option.none_orElse,
      show PriceRegex.litIC "birr".toList k prev (CleanTok.Cur.chars .usd ++ r) =
      none from rfl, Option.none_orElse,
      show PriceRegex.litIC "USD".toList k prev (CleanTok.Cur.chars .usd ++ r) =
      k (some 'D') r from rfl, hk]
    rfl

theorem isWord_curLast (c : CleanTok.Cur) :
    PriceRegex.isWordC (CleanTok.curLast c) = true := by cases c <;> rfl

theorem notSpace_curLast (c : CleanTok.Cur) :
    PriceRegex.isSpaceC (CleanTok.curLast c) = false := by cases c <;> rfl

theorem endBound_word_nil (c : Char) (h : PriceRegex.isWordC c = true) :
    PriceRegex.endBound (some c) [] = some [] := by
  have : PriceRegex.boundary (some c) none = true := by
    simp [PriceRegex.boundary, PriceRegex.wordOpt, h, Bool.xor_false]
  simp [PriceRegex.endBound, this]

theorem endBound_word_space (c : Char) (h : PriceRegex.isWordC c = true) (r : List Char) :
    PriceRegex.endBound (some c) (' ' :: r) = some (' ' :: r) := by
  have hs : PriceRegex.isWordC ' ' = false := rfl
  have : PriceRegex.boundary (some c) (some ' ') = true := by
    simp [PriceRegex.boundary, PriceRegex.wordOpt, h, hs, Bool.xor_false]
  simp [PriceRegex.endBound, this]

theorem endBound_space_digit (n : Fin 10) (r : List Char) :
    PriceRegex.endBound (some ' ') (CleanTok.digitChar n :: r) =
      some (CleanTok.digitChar n :: r) := by
  have hs : PriceRegex.isWordC ' ' = false := rfl
  have : PriceRegex.boundary (some ' ') (some (CleanTok.digitChar n)) = true := by
    simp [PriceRegex.boundary, PriceRegex.wordOpt, hs, isWord_digitChar, Bool.false_xor]
  simp [PriceRegex.endBound, this]

theorem chars_head (t : CleanTok.Tok) :
    ∃ (n : Fin 10) (r0 : List Char), t.chars = CleanTok.digitChar n :: r0 := by
  obtain ⟨ds, gs, tl, cur⟩ := t
  cases ds with
  | one a => exact ⟨a, _, rfl⟩
  | two a b => exact ⟨a, _, rfl⟩
  | three a b c => exact ⟨a, _, rfl⟩

theorem headNotDigit_sufRest (cur : Option (Nat × CleanTok.Cur)) (rest : List Char)
    (hrest : rest = [] ∨ ∃ (n : Fin 10) (r' : List Char),
      rest = ' ' :: CleanTok.digitChar n :: r') :
    PriceRegex.headNotDigit (CleanTok.sufChars cur ++ rest) = true := by
  cases cur with
  | some nc =>
    obtain ⟨n, c⟩ := nc
    cases n with
    | zero => cases c <;> rfl
    | succ m => rfl
  | none =>
    rcases hrest with rfl | ⟨n, r', rfl⟩
    · rfl
    · rfl

theorem headNotSep_sufRest (cur : Option (Nat × CleanTok.Cur)) (rest : List Char)
    (hrest : rest = [] ∨ ∃ (n : Fin 10) (r' : List Char),
      rest = ' ' :: CleanTok.digitChar n :: r') :
    PriceRegex.headNotSep (CleanTok.sufChars cur ++ rest) = true := by
  cases cur with
  | some nc =>
    obtain ⟨n, c⟩ := nc
    cases n with
    | zero => cases c <;> rfl
    | succ m => rfl
  | none =>
    rcases hrest with rfl | ⟨n, r', rfl⟩
    · rfl
    · rfl

theorem headNotSpace_curRest (c : CleanTok.Cur) (rest : List Char) :
    PriceRegex.headNotSpace (CleanTok.Cur.chars c ++ rest) = true := by
  cases c <;> rfl

theorem noIter3_of_headNotSep (l : List Char) (h : PriceRegex.headNotSep l = true) :
    PriceRegex.noIter3 l = true := by
  rcases l with _ | ⟨c, _ | ⟨d1, _ | ⟨d2, _ | ⟨d3, r⟩⟩⟩⟩
  · rfl
  · rfl
  · rfl
  · rfl
  · simp only [PriceRegex.headNotSep, Bool.not_eq_true'] at h
    simp [PriceRegex.noIter3, h]

theorem noIter3_tail (tl : Option CleanTok.Tl2) (cur : Option (Nat × CleanTok.Cur))
    (rest : List Char)
    (hrest : rest = [] ∨ ∃ (n : Fin 10) (r' : List Char),
      rest = ' ' :: CleanTok.digitChar n :: r') :
    PriceRegex.noIter3 (CleanTok.tlChars tl ++ (CleanTok.sufChars cur ++ rest)) = true := by
  cases tl with
  | none =>
    simp only [CleanTok.tlChars, List.nil_append]
    exact noIter3_of_headNotSep _ (headNotSep_sufRest cur rest hrest)
  | some t2 =>
    obtain ⟨sp, a, b⟩ := t2
    simp only [CleanTok.tlChars, CleanTok.Tl2.chars, List.cons_append, List.nil_append]
    rcases hx : CleanTok.sufChars cur ++ rest with _ | ⟨x, xs⟩
    · rfl
    · have h4 := headNotDigit_sufRest cur rest hrest
      rw [hx] at h4
      simp only [PriceRegex.headNotDigit, Bool.not_eq_true'] at h4
      simp [PriceRegex.noIter3, h4]

theorem tokMatch (t : CleanTok.Tok) (prev : Option Char) (rest : List Char)
    (hprev : PriceRegex.wordOpt prev = false)
    (hrest : rest = [] ∨ ∃ (n : Fin 10) (r' : List Char),
      rest = ' ' :: CleanTok.digitChar n :: r') :
    PriceRegex.priceMatch prev (t.chars ++ rest) =
      some (if t.cur.isSome then rest else rest.drop 1) := by
  obtain ⟨n0, r0, hhead⟩ := chars_head t
  have hb : PriceRegex.boundary prev ((t.chars ++ rest).head?) = true := by
    rw [hhead, List.cons_append]
    show PriceRegex.boundary prev (some (CleanTok.digitChar n0)) = true
    have hw : PriceRegex.wordOpt (some (CleanTok.digitChar n0)) = true := isWord_digitChar n0
    unfold PriceRegex.boundary
    rw [hprev, hw]
    rfl
  unfold PriceRegex.priceMatch
  rw [if_pos hb]
  unfold CleanTok.Tok.chars
  simp only [List.append_assoc]
  apply digits13_run
  · cases hgs : t.groups with
    | cons g gs' =>
      obtain ⟨sp, a, b, c⟩ := g
      simp [PriceRegex.headNotDigit, CleanTok.Grp.chars, notDigit_sepChar]
    | nil =>
      cases htl : t.tl with
      | some t2 =>
        obtain ⟨sp, a, b⟩ := t2
        simp [PriceRegex.headNotDigit, CleanTok.tlChars, CleanTok.Tl2.chars, notDigit_sepChar]
      | none => simpa using headNotDigit_sufRest t.cur rest hrest
  · apply sepStar_run
    · exact noIter3_tail t.tl t.cur rest hrest
    · apply opt2_run
      · exact headNotSep_sufRest t.cur rest hrest
      · cases hcur : t.cur with
        | some nc =>
          obtain ⟨nsp, c⟩ := nc
          show PriceRegex.spaceStar _ _ (CleanTok.sufChars (some (nsp, c)) ++ rest) =
            some rest
          rw [show CleanTok.sufChars (some (nsp, c)) =
            List.replicate nsp ' ' ++ CleanTok.Cur.chars c from rfl, List.append_assoc]
          apply spaceStar_run
          · exact headNotSpace_curRest c rest
          · apply currency_consume
            rcases hrest with rfl | ⟨n', r', rfl⟩
            · exact endBound_word_nil _ (isWord_curLast c)
            · exact endBound_word_space _ (isWord_curLast c) _
        | none =>
          rcases hrest with rfl | ⟨n', r', rfl⟩
          · show PriceRegex.spaceStar _ _ (CleanTok.sufChars none ++ ([] : List Char)) =
              some ([] : List Char)
            exact spaceStar_run _ 0 _ [] [] rfl
              (by rw [currency_at_nil]; exact endBound_word_nil _ (isWord_digitChar _))
          · show PriceRegex.spaceStar _ _
              (CleanTok.sufChars none ++ (' ' :: CleanTok.digitChar n' :: r')) =
              some (CleanTok.digitChar n' :: r')
            exact spaceStar_run _ 1 _ (CleanTok.digitChar n' :: r') _
              (by simp [PriceRegex.headNotSpace, notSpace_digitChar])
              (by rw [currency_at_digit]; exact endBound_space_digit n' r')

theorem priceMatch_space_head (p : Option Char) (xs : List Char) :
    PriceRegex.priceMatch p (' ' :: xs) = none := by
  unfold PriceRegex.priceMatch
  rcases Bool.dichotomy (PriceRegex.boundary p (' ' :: xs).head?) with h | h <;> rw [h]
  · rfl
  · rfl

theorem priceMatch_nil (p : Option Char) : PriceRegex.priceMatch p [] = none := by
  unfold PriceRegex.priceMatch
  rcases Bool.dichotomy (PriceRegex.boundary p ([] : List Char).head?) with h | h <;> rw [h]
  · rfl
  · rfl

theorem findallAux_nil (f : Nat) (p : Option Char) :
    PriceRegex.findallAux f p [] = [] := by
  cases f with
  | zero => rfl
  | succ g => simp only [PriceRegex.findallAux, priceMatch_nil]

theorem take_append_len (A B : List Char) :
    (A ++ B).take ((A ++ B).length - B.length) = A := by
  apply List.take_left'
  simp

theorem ds_getLast (ds : CleanTok.Digits13) :
    ds.chars.getLast? = some (CleanTok.digitChar ds.lastD) := by
  cases ds <;> rfl

theorem cur_getLast (c : CleanTok.Cur) :
    (CleanTok.Cur.chars c).getLast? = some (CleanTok.curLast c) := by
  cases c <;> rfl

theorem getLast?_append_flatten (gs : List CleanTok.Grp) :
    ∀ (A : List Char) (m : Fin 10), A.getLast? = some (CleanTok.digitChar m) →
    (A ++ (gs.map CleanTok.Grp.chars).flatten).getLast? =
      some (CleanTok.digitChar (CleanTok.grpLastD gs m)) := by
  induction gs with
  | nil =>
    intro A m hA
    simpa [CleanTok.grpLastD] using hA
  | cons g gs ih =>
    intro A m hA
    obtain ⟨sp, a, b, c⟩ := g
    rw [List.map_cons, List.flatten_cons, ← List.append_assoc]
    have hA2 : (A ++ CleanTok.Grp.chars ⟨sp, a, b, c⟩).getLast? =
        some (CleanTok.digitChar c) := by
      rw [show A ++ CleanTok.Grp.chars ⟨sp, a, b, c⟩ =
        (A ++ [sp.toChar, CleanTok.digitChar a, CleanTok.digitChar b]) ++
          [CleanTok.digitChar c] by simp [CleanTok.Grp.chars]]
      exact List.getLast?_concat _
    rw [show CleanTok.grpLastD (⟨sp, a, b, c⟩ :: gs) m = CleanTok.grpLastD gs c from rfl]
    exact ih _ c hA2

theorem tok_getLast (t : CleanTok.Tok) : t.chars.getLast? = some t.lastC := by
  unfold CleanTok.Tok.chars CleanTok.Tok.lastC
  have hcore : (t.ds.chars ++ (t.groups.map CleanTok.Grp.chars).flatten ++
      CleanTok.tlChars t.tl).getLast? =
      some (CleanTok.digitChar (CleanTok.tlLastD t.tl (CleanTok.grpLastD t.groups t.ds.lastD))) := by
    cases htl : t.tl with
    | none =>
      simp only [CleanTok.tlChars, List.append_nil, CleanTok.tlLastD]
      exact getLast?_append_flatten t.groups t.ds.chars t.ds.lastD (ds_getLast t.ds)
    | some t2 =>
      obtain ⟨sp, a, b⟩ := t2
      rw [List.getLast?_append]
      rfl
  cases hcur : t.cur with
  | none =>
    simpa [CleanTok.sufChars, List.append_nil] using hcore
  | some nc =>
    obtain ⟨n, c⟩ := nc
    rw [List.getLast?_append]
    rw [show CleanTok.sufChars (some (n, c)) =
      List.replicate n ' ' ++ CleanTok.Cur.chars c from rfl, List.getLast?_append,
      cur_getLast]
    rfl

theorem notSpace_lastC (t : CleanTok.Tok) :
    PriceRegex.isSpaceC t.lastC = false := by
  unfold CleanTok.Tok.lastC
  cases t.cur with
  | none => exact notSpace_digitChar _
  | some nc => exact notSpace_curLast nc.2

theorem isWord_lastC (t : CleanTok.Tok) :
    PriceRegex.isWordC t.lastC = true := by
  unfold CleanTok.Tok.lastC
  cases t.cur with
  | none => exact isWord_digitChar _
  | some nc => exact isWord_curLast nc.2

theorem stripTrail_of_getLast (l : List Char) (c : Char) (hl : l.getLast? = some c)
    (hc : PriceRegex.isSpaceC c = false) : CleanTok.stripTrail l = l := by
  unfold CleanTok.stripTrail
  rw [List.getLast?_eq_head?_reverse] at hl
  cases hrev : l.reverse with
  | nil => rw [List.dropWhile_nil, ← hrev, List.reverse_reverse]
  | cons x xs =>
    rw [hrev] at hl
    have hx : x = c := by simpa using hl
    have hcx : PriceRegex.isSpaceC x = false := hx ▸ hc
    rw [List.dropWhile_cons, hcx]
    simp only [Bool.false_eq_true, if_false]
    rw [← hrev, List.reverse_reverse]

theorem stripTrail_append_space (A : List Char) :
    CleanTok.stripTrail (A ++ [' ']) = CleanTok.stripTrail A := by
  unfold CleanTok.stripTrail
  rw [List.reverse_append]
  have hsp : PriceRegex.isSpaceC ' ' = true := rfl
  rw [show ([' '] : List Char).reverse ++ A.reverse = ' ' :: A.reverse by rfl,
    List.dropWhile_cons, hsp]
  simp

theorem stripTrail_tok (t : CleanTok.Tok) : CleanTok.stripTrail t.chars = t.chars :=
  stripTrail_of_getLast _ _ (tok_getLast t) (notSpace_lastC t)

theorem join_head (t : CleanTok.Tok) (ts : List CleanTok.Tok) :
    ∃ (n : Fin 10) (r : List Char),
      CleanTok.joinSpace ((t :: ts).map CleanTok.Tok.chars) = CleanTok.digitChar n :: r := by
  obtain ⟨n0, r0, hh⟩ := chars_head t
  cases ts with
  | nil => exact ⟨n0, r0, by simp [CleanTok.joinSpace, hh]⟩
  | cons t2 ts2 =>
    refine ⟨n0, r0 ++ ' ' :: CleanTok.joinSpace ((t2 :: ts2).map CleanTok.Tok.chars), ?_⟩
    rw [List.map_cons, show CleanTok.joinSpace (t.chars :: (t2 :: ts2).map CleanTok.Tok.chars) =
      t.chars ++ ' ' :: CleanTok.joinSpace ((t2 :: ts2).map CleanTok.Tok.chars) from rfl, hh]
    rfl

theorem scan_join (ts : List CleanTok.Tok) :
    ∀ (fuel : Nat) (prev : Option Char),
      PriceRegex.wordOpt prev = false →
      (CleanTok.joinSpace (ts.map CleanTok.Tok.chars)).length < fuel →
      (PriceRegex.findallAux fuel prev (CleanTok.joinSpace (ts.map CleanTok.Tok.chars))).map
          CleanTok.stripTrail = ts.map CleanTok.Tok.chars := by
  induction ts with
  | nil =>
    intro fuel prev hprev hfuel
    show (PriceRegex.findallAux fuel prev []).map CleanTok.stripTrail = []
    rw [findallAux_nil]
    rfl
  | cons t ts ih =>
    intro fuel prev hprev hfuel
    cases ts with
    | nil =>
      have hj : CleanTok.joinSpace ([t].map CleanTok.Tok.chars) = t.chars := rfl
      rw [hj] at hfuel ⊢
      obtain ⟨f, rfl⟩ : ∃ f, fuel = f + 1 := ⟨fuel - 1, by omega⟩
      have hm := tokMatch t prev [] hprev (Or.inl rfl)
      rw [List.append_nil] at hm
      have hm' : PriceRegex.priceMatch prev t.chars = some [] := by
        rw [hm]
        cases t.cur.isSome <;> rfl
      simp only [PriceRegex.findallAux, hm', List.length_nil, Nat.sub_zero, List.take_length]
      rw [findallAux_nil]
      simp [stripTrail_tok]
    | cons t2 ts2 =>
      generalize hR : CleanTok.joinSpace ((t2 :: ts2).map CleanTok.Tok.chars) = R at ih ⊢
      have hj : CleanTok.joinSpace ((t :: t2 :: ts2).map CleanTok.Tok.chars) =
          t.chars ++ ' ' :: R := by
        rw [← hR]
        rfl
      rw [hj] at hfuel ⊢
      obtain ⟨n1, r1, hRhead⟩ := join_head t2 ts2
      rw [hR] at hRhead
      obtain ⟨f, rfl⟩ : ∃ f, fuel = f + 1 := ⟨fuel - 1, by omega⟩
      have hm := tokMatch t prev (' ' :: R) hprev (Or.inr ⟨n1, r1, by rw [hRhead]⟩)
      have hlen : 1 ≤ t.chars.length := by
        obtain ⟨n0, r0, hh⟩ := chars_head t
        rw [hh]
        simp
      have hflen : R.length < f := by
        have := hfuel
        simp [List.length_append] at this
        omega
      cases hcur : t.cur with
      | none =>
        rw [hcur] at hm
        simp only [Option.isSome_none, Bool.false_eq_true, if_false, List.drop_succ_cons,
          List.drop_zero] at hm
        simp only [PriceRegex.findallAux, hm]
        have hs : t.chars ++ ' ' :: R = (t.chars ++ [' ']) ++ R := by simp
        have htok : (t.chars ++ ' ' :: R).take ((t.chars ++ ' ' :: R).length - R.length) =
            t.chars ++ [' '] := by
          rw [hs]
          exact take_append_len _ _
        rw [htok, List.getLast?_concat, List.map_cons, stripTrail_append_space, stripTrail_tok]
        rw [List.map_cons]
        congr 1
        exact ih f (some ' ') rfl hflen
      | some nc =>
        rw [hcur] at hm
        simp only [Option.isSome_some, if_true] at hm
        simp only [PriceRegex.findallAux, hm]
        have htok : (t.chars ++ ' ' :: R).take ((t.chars ++ ' ' :: R).length -
            (' ' :: R).length) = t.chars := take_append_len _ _
        rw [htok, tok_getLast]
        obtain ⟨g, rfl⟩ : ∃ g, f = g + 1 := ⟨f - 1, by omega⟩
        rw [show PriceRegex.findallAux (g + 1) (some t.lastC) (' ' :: R) =
          PriceRegex.findallAux g (some ' ') R by
            simp only [PriceRegex.findallAux, priceMatch_space_head]]
        rw [List.map_cons, stripTrail_tok, List.map_cons]
        congr 1
        apply ih g (some ' ') rfl
        have := hfuel
        simp [List.length_append] at this
        omega

/-- C8 counterexample: extraction is not idempotent on its own output as
stated.  From the text "5 x" extraction returns the single token "5 "
(the pattern's whitespace-star absorbs the trailing space); re-running
extraction on the concatenation of the extracted tokens returns "5", a
different token set. -/
theorem c8_counterexample :
    Pipeline.extract_prices "5 x".toList = ["5 ".toList]
  ∧ CleanTok.joinSpace (Pipeline.extract_prices "5 x".toList) = "5 ".toList
  ∧ Pipeline.extract_prices (CleanTok.joinSpace (Pipeline.extract_prices "5 x".toList)) =
      ["5".toList]
  ∧ Pipeline.extract_prices (CleanTok.joinSpace (Pipeline.extract_prices "5 x".toList)) ≠
      Pipeline.extract_prices "5 x".toList
  ∧ "5 ".toList ∉
      Pipeline.extract_prices (CleanTok.joinSpace (Pipeline.extract_prices "5 x".toList)) := by
  decide

/-- C8 as amended: extract_prices is idempotent on its own output only up
to trailing whitespace, and for clean price tokens — one to three digits,
optional separator-plus-three-digit groups, an optional
separator-plus-two-digit tail, and an optional spaces-plus-currency-word
suffix (ETB, birr or USD; not a bare dollar sign): re-running extraction
on the space-separated concatenation of any list of such tokens returns
exactly those tokens after trailing whitespace is stripped from each
result. -/
theorem c8_amended_idempotent_up_to_trailing_space (ts : List CleanTok.Tok) :
    (Pipeline.extract_prices (CleanTok.joinSpace (ts.map CleanTok.Tok.chars))).map
        CleanTok.stripTrail = ts.map CleanTok.Tok.chars := by
  unfold Pipeline.extract_prices PriceRegex.findall
  exact scan_join ts _ none rfl (Nat.lt_succ_self _)

end Theorems
